import Mathlib

/-!
Shallow embedding of `src/mathjax3-ts/output/chtml/FontData.ts` (the MathJax
FontData class for character bounding-box data and stretchy delimiters).

The TypeScript code stores each variant's character table as a JavaScript
object whose prototype chain realizes the inheritance fallback:
`Object.create(parent)` adds a fresh own-property layer in front of the
parent's chain, `Object.assign(target, src)` copies the own enumerable
properties of `src` into `target`'s own layer, and property lookup walks the
chain front to back.  Because the link mechanism relies on shared mutable
objects (the snapshot layer pushed onto `linked` is later mutated in place by
`defineChars`), we model objects explicitly: a `Heap` maps layer ids to
property maps, and a character-table object (`JsObj`) is an own layer id plus
the list of prototype layer ids.  Prototype links are never changed after
creation by any operation of this API, so representing the chain as a list of
ids is faithful.
-/

/-- Character metric data (`CharData` in the source): an array of
3 to 6 entries `[height, depth, width, italic-correction?, skew?, options?]`.
The open-ended `OptionList` of rendering hints is modelled as a finite
association list. -/
inductive CharData where
  | c3 (h d w : ℚ)
  | c4 (h d w ic : ℚ)
  | c5 (h d w ic sk : ℚ)
  | c6 (h d w ic sk : ℚ) (opts : List (String × ℚ))
deriving DecidableEq

/-- The own enumerable properties of a character-map object
(`CharMap` in the source): character code to character data. -/
abbrev Props := Nat → Option CharData

/-- A freshly created object `{}` has no own properties. -/
def emptyProps : Props := fun _ => none

/-- Model of `Object.assign(target, src)`: own properties of `src` overwrite those of
`target`; codes absent from `src` keep `target`'s value. -/
def assignProps (target src : Props) : Props := fun n =>
  match src n with
  | some v => some v
  | none => target n

/-- The heap of own-property layers: `mem i` is the property map of layer
`i`; `next` is the next fresh layer id. -/
structure Heap where
  mem : Nat → Props
  next : Nat

/-- The empty heap. -/
def Heap.empty : Heap := ⟨fun _ => emptyProps, 0⟩

/-- Overwrite layer `i`'s property map. -/
def Heap.set (h : Heap) (i : Nat) (p : Props) : Heap :=
  ⟨fun j => if j = i then p else h.mem j, h.next⟩

/-- Allocate a fresh, empty layer (the id is `h.next`). -/
def Heap.alloc (h : Heap) : Heap :=
  ⟨fun j => if j = h.next then emptyProps else h.mem j, h.next + 1⟩

/-- A character-table object: its own-property layer id and the layer ids of
its prototype chain, nearest prototype first. -/
structure JsObj where
  own : Nat
  protos : List Nat
deriving DecidableEq

/-- The full lookup chain of an object, own layer first. -/
def chainOf (o : JsObj) : List Nat := o.own :: o.protos

/-- JavaScript property lookup along a prototype chain: the first layer that
has an own property for `n` wins. -/
def lookupChain (h : Heap) : List Nat → Nat → Option CharData
  | [], _ => none
  | l :: rest, n =>
    match h.mem l n with
    | some v => some v
    | none => lookupChain h rest n

/-- The `VariantData` record from the source: the ids of the snapshot layers that must
be updated when characters are added to this variant (`linked`), and the
character table object (`chars`). -/
structure VariantData where
  linked : List Nat
  chars : JsObj
deriving DecidableEq

/-- The `DelimiterData` record from the source: stretch direction, optional fixed-size
list, optional per-size variant-index override list, optional part character
codes, and optional `[h, d, w]` box override. -/
structure DelimiterData where
  dir : String
  sizes : Option (List ℚ)
  variants : Option (List Nat)
  stretch : Option (List Nat)
  HDW : Option (List ℚ)
deriving DecidableEq

/-- A delimiter table (`DelimiterMap` in the source). -/
abbrev DelimMap := Nat → Option DelimiterData

/-- The `FontParameters` record from the source: the TeX typesetting constants. -/
structure FontParameters where
  x_height : ℚ
  quad : ℚ
  num1 : ℚ
  num2 : ℚ
  num3 : ℚ
  denom1 : ℚ
  denom2 : ℚ
  sup1 : ℚ
  sup2 : ℚ
  sup3 : ℚ
  sub1 : ℚ
  sub2 : ℚ
  sup_drop : ℚ
  sub_drop : ℚ
  delim1 : ℚ
  delim2 : ℚ
  axis_height : ℚ
  rule_thickness : ℚ
  big_op_spacing1 : ℚ
  big_op_spacing2 : ℚ
  big_op_spacing3 : ℚ
  big_op_spacing4 : ℚ
  big_op_spacing5 : ℚ
  surd_height : ℚ
  scriptspace : ℚ
  nulldelimiterspace : ℚ
  delimiterfactor : ℚ
  delimitershortfall : ℚ
  min_rule_thickness : ℚ
deriving DecidableEq

/-- The instance state of a `FontData` object: the variant map, the
delimiter table, the size-variant name list and the font parameters. -/
structure FontData where
  variant : String → Option VariantData
  delimiters : DelimMap
  sizeVariants : List String
  params : FontParameters

/-- Assignment `this.variant[name] = v`. -/
def setVar (st : FontData) (name : String) (v : VariantData) : FontData :=
  { st with variant := fun k => if k = name then some v else st.variant k }

/-- The prototype chain for a new variant's character object:
`inherit ? Object.create(this.variant[inherit].chars) : {}`.  Returns `none`
when `inherit` is given but unregistered (the source throws reading
`.chars` of `undefined`). -/
def protoChain (st : FontData) : Option String → Option (List Nat)
  | none => some []
  | some inh => (st.variant inh).map (fun v => chainOf v.chars)

/-- Model of `FontData.createVariant(name, inherit, link)`.  A fresh own layer is
created on top of the inherit chain; when `link` names a registered variant,
the own properties of the link's character object are copied into that layer
(`Object.assign`), the layer is pushed onto the link's `linked` list, and a
further fresh own layer is created on top (`Object.create`).  Returns `none`
when `inherit` names an unregistered variant (TypeError in the source). -/
def createVariant (h : Heap) (st : FontData) (name : String)
    (inherit : Option String) (link : Option String) :
    Option (Heap × FontData) :=
  match protoChain st inherit with
  | none => none
  | some pc =>
    -- the source's local `variant.chars` starts as the fresh layer `h.next`
    -- (id of the `Object.create`/`{}` object) on top of `pc`
    match link with
    | none => some (h.alloc, setVar st name ⟨[], ⟨h.next, pc⟩⟩)
    | some lk =>
      match st.variant lk with
      | none => some (h.alloc, setVar st name ⟨[], ⟨h.next, pc⟩⟩)
      | some vl =>
        -- `Object.assign(variant.chars, this.variant[link].chars)`;
        -- `this.variant[link].linked.push(variant.chars)`;
        -- `variant.chars = Object.create(variant.chars)` (fresh layer `h.next + 1`)
        some ((h.alloc.set h.next
                (assignProps (h.alloc.mem h.next) (h.alloc.mem vl.chars.own))).alloc,
          setVar (setVar st lk ⟨vl.linked ++ [h.next], vl.chars⟩) name
            ⟨[], ⟨h.next + 1, h.next :: pc⟩⟩)

/-- Model of `FontData.createVariants(variants)`: apply `createVariant` to each
`[name, inherit?, link?]` triple in order. -/
def createVariants (h : Heap) (st : FontData) :
    List (String × Option String × Option String) → Option (Heap × FontData)
  | [] => some (h, st)
  | v :: rest =>
    match createVariant h st v.1 v.2.1 v.2.2 with
    | none => none
    | some (h', st') => createVariants h' st' rest

/-- The propagation loop of `defineChars`:
`for (const link of variant.linked) { Object.assign(link, chars); }`. -/
def propagate (chars : Props) (h : Heap) : List Nat → Heap
  | [] => h
  | l :: rest => propagate chars (h.set l (assignProps (h.mem l) chars)) rest

/-- Model of `FontData.defineChars(name, chars)`: merge `chars` into the variant's
own layer, then into every linked snapshot layer.  Returns `none` when
`name` is unregistered (TypeError in the source). -/
def defineChars (h : Heap) (st : FontData) (name : String) (chars : Props) :
    Option (Heap × FontData) :=
  match st.variant name with
  | none => none
  | some v =>
    let h1 := h.set v.chars.own (assignProps (h.mem v.chars.own) chars)
    some (propagate chars h1 v.linked, st)

/-- Model of `FontData.defineDelimiters(delims)`: `Object.assign(this.delimiters, delims)`. -/
def defineDelimiters (st : FontData) (delims : DelimMap) : FontData :=
  { st with delimiters := fun n =>
      match delims n with
      | some d => some d
      | none => st.delimiters n }

/-- Model of `FontData.getDelimiter(n)`: the delimiter data, or `undefined`. -/
def getDelimiter (st : FontData) (n : Nat) : Option DelimiterData :=
  st.delimiters n

/-- Model of `FontData.getSizeVariant(n, i)`.  Result `none` models the TypeError
thrown when delimiter `n` is unregistered; `some none` models a returned
`undefined` (out-of-range array access); `some (some s)` is a returned
variant name. -/
def getSizeVariant (st : FontData) (n i : Nat) : Option (Option String) :=
  match st.delimiters n with
  | none => none
  | some d =>
    match d.variants with
    | some vs =>
      match vs[i]? with
      | none => some none
      | some j => some st.sizeVariants[j]?
    | none => some st.sizeVariants[i]?

/-- Model of `FontData.getChar(name, n)`.  Result `none` models the TypeError thrown
when `name` is unregistered; `some none` models a returned `undefined`
("not found"); `some (some c)` is found character data. -/
def getChar (h : Heap) (st : FontData) (name : String) (n : Nat) :
    Option (Option CharData) :=
  (st.variant name).map (fun v => lookupChain h (chainOf v.chars) n)

/-- Model of `FontData.getVariant(name)`: the variant data, or `undefined`. -/
def getVariant (st : FontData) (name : String) : Option VariantData :=
  st.variant name

/-- The class-level default tables copied by the constructor (a subclass may
override any of them, so the constructor is parameterized by them). -/
structure FontDefaults where
  defaultParams : FontParameters
  defaultSizeVariants : List String
  defaultVariants : List (String × Option String × Option String)
  defaultDelimiters : DelimMap
  defaultChars : List (String × Props)

/-- The constructor's final loop:
`for (const name of Object.keys(CLASS.defaultChars)) { this.defineChars(name, ...); }`. -/
def defineCharsAll (h : Heap) (st : FontData) :
    List (String × Props) → Option (Heap × FontData)
  | [] => some (h, st)
  | nc :: rest =>
    match defineChars h st nc.1 nc.2 with
    | none => none
    | some (h', st') => defineCharsAll h' st' rest

/-- The `FontData` constructor: copy the default parameters and size-variant
list, create the default variants, then define the default delimiters and
the default characters, in that order. -/
def mkFontData (h : Heap) (D : FontDefaults) : Option (Heap × FontData) :=
  let st0 : FontData :=
    { variant := fun _ => none
      delimiters := fun _ => none
      sizeVariants := D.defaultSizeVariants
      params := D.defaultParams }
  match createVariants h st0 D.defaultVariants with
  | none => none
  | some (h1, st1) => defineCharsAll h1 (defineDelimiters st1 D.defaultDelimiters) D.defaultChars

/-- The table `FontData.defaultVariants` from the source: the standard variants as
`[name, inherit?, link?]` rows. -/
def defaultVariants : List (String × Option String × Option String) :=
  [("normal", none, none),
   ("bold", some "normal", none),
   ("italic", some "normal", none),
   ("bold-italic", some "italic", some "bold"),
   ("double-struck", some "bold", none),
   ("fraktur", some "normal", none),
   ("bold-fraktur", some "bold", some "fraktur"),
   ("script", some "normal", none),
   ("bold-script", some "bold", some "script"),
   ("sans-serif", some "normal", none),
   ("bold-sans-serif", some "bold", some "sans-serif"),
   ("sans-serif-italic", some "italic", some "sans-serif"),
   ("bold-sans-serif-italic", some "bold-italic", some "sans-serif"),
   ("monospace", some "normal", none)]

/-- The table `FontData.defaultParams` from the source. -/
def defaultParams : FontParameters where
  x_height := 0.442
  quad := 1
  num1 := 0.676
  num2 := 0.394
  num3 := 0.444
  denom1 := 0.686
  denom2 := 0.345
  sup1 := 0.413
  sup2 := 0.363
  sup3 := 0.289
  sub1 := 0.15
  sub2 := 0.247
  sup_drop := 0.386
  sub_drop := 0.05
  delim1 := 2.39
  delim2 := 1.0
  axis_height := 0.25
  rule_thickness := 0.06
  big_op_spacing1 := 0.111
  big_op_spacing2 := 0.167
  big_op_spacing3 := 0.2
  big_op_spacing4 := 0.45
  big_op_spacing5 := 0.1
  surd_height := 0.075
  scriptspace := 0.05
  nulldelimiterspace := 0.12
  delimiterfactor := 901
  delimitershortfall := 0.3
  min_rule_thickness := 1.25

/-- The base class's static default tables (`defaultDelimiters`,
`defaultChars` and `defaultSizeVariants` are empty in this source file). -/
def baseFontDefaults : FontDefaults :=
  ⟨defaultParams, [], defaultVariants, fun _ => none, []⟩

/-- The mutating operations of the public API. -/
inductive FontOp where
  | create (name : String) (inherit link : Option String)
  | defChars (name : String) (chars : Props)
  | defDelims (delims : DelimMap)

/-- Apply one mutating operation to an instance. -/
def applyOp (h : Heap) (st : FontData) : FontOp → Option (Heap × FontData)
  | .create name inh lk => createVariant h st name inh lk
  | .defChars name cs => defineChars h st name cs
  | .defDelims ds => some (h, defineDelimiters st ds)

/-- Apply a sequence of mutating operations to an instance. -/
def runOps (h : Heap) (st : FontData) : List FontOp → Option (Heap × FontData)
  | [] => some (h, st)
  | op :: rest =>
    match applyOp h st op with
    | none => none
    | some (h', st') => runOps h' st' rest

/-- Two `FontData` instances sharing one heap of character-table layers. -/
structure TwoFonts where
  heap : Heap
  fst : FontData
  snd : FontData

/-- Apply a sequence of mutating operations to the first of two instances. -/
def runOpsFst (w : TwoFonts) : List FontOp → Option TwoFonts
  | [] => some w
  | op :: rest =>
    match applyOp w.heap w.fst op with
    | none => none
    | some (h', st') => runOpsFst ⟨h', st', w.snd⟩ rest

/-- The layer ids referenced by an instance's variant map. -/
def idsOf (st : FontData) (i : Nat) : Prop :=
  ∃ name v, st.variant name = some v ∧ (i ∈ chainOf v.chars ∨ i ∈ v.linked)

/-- All referenced layer ids are allocated. -/
def boundedIds (h : Heap) (st : FontData) : Prop :=
  ∀ i, idsOf st i → i < h.next

/-- Singleton map `{n: E}`: a delimiter map holding the single entry `E` at code `n`. -/
def singletonDelim (n : Nat) (E : DelimiterData) : DelimMap :=
  fun m => if m = n then some E else none

/-! ### Concrete instances used to exercise the operations -/

def charX : CharData := .c3 1 2 3

def charY : CharData := .c3 4 5 6

def charZ : CharData := .c3 7 8 9

def props3X : Props := fun n => if n = 3 then some charX else none

def props7Y : Props := fun n => if n = 7 then some charY else none

def props5Z : Props := fun n => if n = 5 then some charZ else none

def props5Y : Props := fun n => if n = 5 then some charY else none

/-- A heap with a single populated layer 0 holding code 3. -/
def heapL : Heap := ⟨fun i => if i = 0 then props3X else emptyProps, 1⟩

/-- A store with a single variant "L" whose own layer is 0. -/
def stL : FontData :=
  ⟨fun k => if k = "L" then some ⟨[], ⟨0, []⟩⟩ else none, fun _ => none, [], defaultParams⟩

/-- A store with a single variant "normal" whose own layer is 0. -/
def stNorm : FontData :=
  ⟨fun k => if k = "normal" then some ⟨[], ⟨0, []⟩⟩ else none, fun _ => none, [], defaultParams⟩

/-- Result of `createVariant("V", null, "L")` applied to `heapL`/`stL`. -/
def linkRes1 : Heap × FontData :=
  (createVariant heapL stL "V" none (some "L")).getD (heapL, stL)

/-- Result of then applying `defineChars("L", {7: charY})`. -/
def linkRes2 : Heap × FontData :=
  (defineChars linkRes1.1 linkRes1.2 "L" props7Y).getD linkRes1

/-- A heap for the bold/italic example: bold's own layer 0 holds code 5. -/
def heapBI : Heap := ⟨fun i => if i = 0 then props5Z else emptyProps, 2⟩

/-- A store with variants "italic" (own layer 1) and "bold" (own layer 0). -/
def stBI : FontData :=
  ⟨fun k => if k = "italic" then some ⟨[], ⟨1, []⟩⟩
    else if k = "bold" then some ⟨[], ⟨0, []⟩⟩ else none,
   fun _ => none, [], defaultParams⟩

/-- Result of `createVariant("bold-italic", "italic", "bold")` applied to `heapBI`/`stBI`. -/
def resBI : Heap × FontData :=
  (createVariant heapBI stBI "bold-italic" (some "italic") (some "bold")).getD (heapBI, stBI)

/-- Result of then applying `defineChars("bold-italic", {5: charY})`. -/
def resBI2 : Heap × FontData :=
  (defineChars resBI.1 resBI.2 "bold-italic" props5Y).getD resBI

/-- Result of `createVariant("V", "normal", null)` applied to `heapL`/`stNorm`. -/
def resNV : Heap × FontData :=
  (createVariant heapL stNorm "V" (some "normal") none).getD (heapL, stNorm)

/-- Result of `defineChars("normal", {7: charY})` applied to `heapL`/`stNorm`. -/
def resN1 : Heap × FontData :=
  (defineChars heapL stNorm "normal" props7Y).getD (heapL, stNorm)

/-- Result of applying the same call a second time. -/
def resN2 : Heap × FontData :=
  (defineChars resN1.1 resN1.2 "normal" props7Y).getD resN1

/-- A vertical delimiter entry with three fixed sizes and no variants override. -/
def delimNoOv : DelimiterData := ⟨"V", some [1, 2, 3], none, none, none⟩

/-- The same entry with the per-size variants override list `[2, 0, 1]`. -/
def delimOv : DelimiterData := ⟨"V", some [1, 2, 3], some [2, 0, 1], none, none⟩

/-- A delimiter entry whose override list holds an out-of-range index. -/
def delimOvBig : DelimiterData := ⟨"V", none, some [5], none, none⟩

def stDelimA : FontData :=
  ⟨fun _ => none, singletonDelim 40 delimNoOv, ["a", "b", "c"], defaultParams⟩

def stDelimB : FontData :=
  ⟨fun _ => none, singletonDelim 40 delimOv, ["a", "b", "c"], defaultParams⟩

def stDelimC : FontData :=
  ⟨fun _ => none, singletonDelim 1 delimNoOv, ["a"], defaultParams⟩

def stDelimD : FontData :=
  ⟨fun _ => none, singletonDelim 1 delimOvBig, ["a"], defaultParams⟩

/-- Small default tables for constructing two instances. -/
def smallDefaults : FontDefaults :=
  ⟨defaultParams, ["a"],
   [("normal", none, none), ("bold", some "normal", none)],
   singletonDelim 40 delimNoOv,
   [("normal", props3X)]⟩

/-- The first instance built from `smallDefaults`. -/
def inst1 : Heap × FontData := (mkFontData Heap.empty smallDefaults).getD (Heap.empty, stL)

/-- The second instance built from `smallDefaults`, sharing the heap. -/
def inst2 : Heap × FontData := (mkFontData inst1.1 smallDefaults).getD (Heap.empty, stL)

/-- A mutation sequence exercising all three mutating operations. -/
def opsMut : List FontOp :=
  [.create "V" (some "normal") (some "bold"),
   .defChars "bold" props7Y,
   .defDelims (singletonDelim 41 delimOv)]

/-- The world after `opsMut` is applied to the first instance, leaving the second alone. -/
def worldMut : TwoFonts :=
  (runOpsFst ⟨inst2.1, inst1.2, inst2.2⟩ opsMut).getD ⟨inst2.1, inst1.2, inst2.2⟩

/-! ### Basic lemmas about the heap and property layers -/

theorem Heap.set_next (h : Heap) (i : Nat) (p : Props) : (h.set i p).next = h.next := rfl

theorem Heap.alloc_next (h : Heap) : h.alloc.next = h.next + 1 := rfl

theorem Heap.set_mem (h : Heap) (i : Nat) (p : Props) (j : Nat) :
    (h.set i p).mem j = if j = i then p else h.mem j := rfl

theorem Heap.alloc_mem (h : Heap) (j : Nat) :
    h.alloc.mem j = if j = h.next then emptyProps else h.mem j := rfl

theorem assignProps_someAt {src : Props} {n : Nat} {x : CharData}
    (hs : src n = some x) (t : Props) : assignProps t src n = some x := by
  simp [assignProps, hs]

theorem assignProps_noneAt {src : Props} {n : Nat}
    (hs : src n = none) (t : Props) : assignProps t src n = t n := by
  simp [assignProps, hs]

theorem assignProps_empty (src : Props) (n : Nat) :
    assignProps emptyProps src n = src n := by
  cases hs : src n <;> simp [assignProps, hs, emptyProps]

theorem lookupChain_congr {h h' : Heap} {chain : List Nat}
    (hmem : ∀ l ∈ chain, h'.mem l = h.mem l) (n : Nat) :
    lookupChain h' chain n = lookupChain h chain n := by
  induction chain with
  | nil => rfl
  | cons l rest ih =>
    simp only [lookupChain]
    rw [hmem l (List.mem_cons_self l rest)]
    cases h.mem l n with
    | some v => rfl
    | none => exact ih (fun x hx => hmem x (List.mem_cons_of_mem _ hx))

/-! ### Lemmas about the propagation loop of `defineChars` -/

theorem propagate_next (chars : Props) (L : List Nat) (h : Heap) :
    (propagate chars h L).next = h.next := by
  induction L generalizing h with
  | nil => rfl
  | cons l rest ih => simpa only [propagate] using ih _

theorem propagate_mem_notMem (chars : Props) {L : List Nat} {i : Nat}
    (hi : i ∉ L) (h : Heap) : (propagate chars h L).mem i = h.mem i := by
  induction L generalizing h with
  | nil => rfl
  | cons l rest ih =>
    have hil : i ≠ l := fun e => hi (e ▸ List.mem_cons_self l rest)
    have hir : i ∉ rest := fun m => hi (List.mem_cons_of_mem _ m)
    simp only [propagate]
    rw [ih hir]
    simp [Heap.set, hil]

theorem propagate_mem_someAt {chars : Props} {n : Nat} {x : CharData}
    (hx : chars n = some x) {L : List Nat} {i : Nat} (hi : i ∈ L) (h : Heap) :
    (propagate chars h L).mem i n = some x := by
  induction L generalizing h with
  | nil => cases hi
  | cons l rest ih =>
    simp only [propagate]
    by_cases hir : i ∈ rest
    · exact ih hir _
    · have hil : i = l := by
        rcases List.mem_cons.mp hi with e | m
        · exact e
        · exact absurd m hir
      subst hil
      rw [propagate_mem_notMem chars hir]
      simp [Heap.set, assignProps, hx]

theorem propagate_mem_noneAt {chars : Props} {n : Nat}
    (hx : chars n = none) (L : List Nat) (h : Heap) (i : Nat) :
    (propagate chars h L).mem i n = h.mem i n := by
  induction L generalizing h with
  | nil => rfl
  | cons l rest ih =>
    simp only [propagate]
    rw [ih]
    by_cases hil : i = l
    · subst hil; simp [Heap.set, assignProps, hx]
    · simp [Heap.set, hil]

/-! ### Case analyses of the mutating operations -/

theorem setVar_variant (st : FontData) (name : String) (v : VariantData) (k : String) :
    (setVar st name v).variant k = if k = name then some v else st.variant k := rfl

theorem protoChain_elim {st : FontData} {inh : Option String} {pc : List Nat}
    (hp : protoChain st inh = some pc) :
    pc = [] ∨ ∃ inh0 vi, inh = some inh0 ∧ st.variant inh0 = some vi ∧ pc = chainOf vi.chars := by
  cases inh with
  | none =>
    simp only [protoChain, Option.some.injEq] at hp
    exact Or.inl hp.symm
  | some inh0 =>
    cases hv : st.variant inh0 with
    | none => simp [protoChain, hv] at hp
    | some vi =>
      simp only [protoChain, hv, Option.map_some', Option.some.injEq] at hp
      exact Or.inr ⟨inh0, vi, rfl, hv, hp.symm⟩

theorem createVariant_elim {h : Heap} {st : FontData} {name : String}
    {inh lk : Option String} {h' : Heap} {st' : FontData}
    (hc : createVariant h st name inh lk = some (h', st')) :
    ∃ pc, protoChain st inh = some pc ∧
      ((h' = h.alloc ∧ st' = setVar st name ⟨[], ⟨h.next, pc⟩⟩ ∧
          (lk = none ∨ ∃ l, lk = some l ∧ st.variant l = none)) ∨
        (∃ l vl, lk = some l ∧ st.variant l = some vl ∧
          h' = ((h.alloc.set h.next
                  (assignProps (h.alloc.mem h.next) (h.alloc.mem vl.chars.own))).alloc) ∧
          st' = setVar (setVar st l ⟨vl.linked ++ [h.next], vl.chars⟩) name
                  ⟨[], ⟨h.next + 1, h.next :: pc⟩⟩)) := by
  unfold createVariant at hc
  split at hc
  · cases hc
  next pc hpc =>
    refine ⟨pc, hpc, ?_⟩
    cases lk with
    | none =>
      simp only [Option.some.injEq, Prod.mk.injEq] at hc
      exact Or.inl ⟨hc.1.symm, hc.2.symm, Or.inl rfl⟩
    | some l =>
      dsimp only at hc
      cases hv : st.variant l with
      | none =>
        rw [hv] at hc
        simp only [Option.some.injEq, Prod.mk.injEq] at hc
        exact Or.inl ⟨hc.1.symm, hc.2.symm, Or.inr ⟨l, rfl, hv⟩⟩
      | some vl =>
        rw [hv] at hc
        simp only [Option.some.injEq, Prod.mk.injEq] at hc
        exact Or.inr ⟨l, vl, rfl, hv, hc.1.symm, hc.2.symm⟩

theorem defineChars_elim {h : Heap} {st : FontData} {name : String} {chars : Props}
    {h' : Heap} {st' : FontData}
    (hd : defineChars h st name chars = some (h', st')) :
    st' = st ∧ ∃ v, st.variant name = some v ∧
      h' = propagate chars (h.set v.chars.own (assignProps (h.mem v.chars.own) chars)) v.linked := by
  unfold defineChars at hd
  cases hv : st.variant name with
  | none => rw [hv] at hd; cases hd
  | some v =>
    rw [hv] at hd
    simp only [Option.some.injEq, Prod.mk.injEq] at hd
    exact ⟨hd.2.symm, v, rfl, hd.1.symm⟩

/-! ### Allocation and frame facts about the mutating operations -/

theorem idsOf_of_chain {st : FontData} {nm : String} {v : VariantData} {i : Nat}
    (hv : st.variant nm = some v) (hi : i ∈ chainOf v.chars) : idsOf st i :=
  ⟨nm, v, hv, Or.inl hi⟩

theorem idsOf_of_linked {st : FontData} {nm : String} {v : VariantData} {i : Nat}
    (hv : st.variant nm = some v) (hi : i ∈ v.linked) : idsOf st i :=
  ⟨nm, v, hv, Or.inr hi⟩

theorem createVariant_next_le {h : Heap} {st : FontData} {name : String}
    {inh lk : Option String} {h' : Heap} {st' : FontData}
    (hc : createVariant h st name inh lk = some (h', st')) :
    h.next ≤ h'.next := by
  obtain ⟨pc, _, hcase | hcase⟩ := createVariant_elim hc
  · rw [hcase.1]; exact Nat.le_succ _
  · obtain ⟨l, vl, _, _, hh, _⟩ := hcase
    rw [hh]
    exact Nat.le_succ_of_le (Nat.le_succ _)

theorem createVariant_mem_lt {h : Heap} {st : FontData} {name : String}
    {inh lk : Option String} {h' : Heap} {st' : FontData}
    (hc : createVariant h st name inh lk = some (h', st')) :
    ∀ i, i < h.next → h'.mem i = h.mem i := by
  intro i hi
  have hne : i ≠ h.next := Nat.ne_of_lt hi
  have hne1 : i ≠ h.next + 1 := Nat.ne_of_lt (Nat.lt_succ_of_lt hi)
  obtain ⟨pc, _, hcase | hcase⟩ := createVariant_elim hc
  · rw [hcase.1]
    simp [Heap.alloc, hne]
  · obtain ⟨l, vl, _, _, hh, _⟩ := hcase
    rw [hh]
    simp [Heap.alloc, Heap.set, hne, hne1]

theorem createVariant_ids {h : Heap} {st : FontData} {name : String}
    {inh lk : Option String} {h' : Heap} {st' : FontData}
    (hc : createVariant h st name inh lk = some (h', st')) :
    ∀ i, idsOf st' i → idsOf st i ∨ (h.next ≤ i ∧ i < h'.next) := by
  intro i hids
  obtain ⟨pc, hpc, hcase | hcase⟩ := createVariant_elim hc
  · obtain ⟨hh, hst, _⟩ := hcase
    obtain ⟨nm, v, hv, hmem⟩ := hids
    rw [hst, setVar_variant] at hv
    by_cases hnm : nm = name
    · rw [if_pos hnm] at hv
      cases hv
      rcases hmem with hchain | hlinked
      · rcases List.mem_cons.mp hchain with e | hpcmem
        · subst e
          exact Or.inr ⟨Nat.le_refl _, by rw [hh]; exact Nat.lt_succ_self _⟩
        · rcases protoChain_elim hpc with e | ⟨inh0, vi, _, hvi, hpce⟩
          · rw [e] at hpcmem; cases hpcmem
          · rw [hpce] at hpcmem
            exact Or.inl (idsOf_of_chain hvi hpcmem)
      · cases hlinked
    · rw [if_neg hnm] at hv
      exact Or.inl ⟨nm, v, hv, hmem⟩
  · obtain ⟨l, vl, _, hvl, hh, hst⟩ := hcase
    have hnext : h'.next = h.next + 2 := by rw [hh]; rfl
    obtain ⟨nm, v, hv, hmem⟩ := hids
    rw [hst, setVar_variant] at hv
    by_cases hnm : nm = name
    · rw [if_pos hnm] at hv
      cases hv
      rcases hmem with hchain | hlinked
      · rcases List.mem_cons.mp hchain with e | hrest
        · subst e
          exact Or.inr ⟨Nat.le_succ_of_le (Nat.le_refl _), by rw [hnext]; exact Nat.lt_succ_self _⟩
        · rcases List.mem_cons.mp hrest with e | hpcmem
          · subst e
            exact Or.inr ⟨Nat.le_refl _, by rw [hnext]; exact Nat.lt_succ_of_lt (Nat.lt_succ_self _)⟩
          · rcases protoChain_elim hpc with e | ⟨inh0, vi, _, hvi, hpce⟩
            · rw [e] at hpcmem; cases hpcmem
            · rw [hpce] at hpcmem
              exact Or.inl (idsOf_of_chain hvi hpcmem)
      · cases hlinked
    · rw [if_neg hnm, setVar_variant] at hv
      by_cases hnl : nm = l
      · rw [if_pos hnl] at hv
        cases hv
        rcases hmem with hchain | hlinked
        · exact Or.inl (idsOf_of_chain hvl hchain)
        · rcases List.mem_append.mp hlinked with hold | hnew
          · exact Or.inl (idsOf_of_linked hvl hold)
          · rcases List.mem_singleton.mp hnew with e
            subst e
            exact Or.inr ⟨Nat.le_refl _, by rw [hnext]; exact Nat.lt_succ_of_lt (Nat.lt_succ_self _)⟩
      · rw [if_neg hnl] at hv
        exact Or.inl ⟨nm, v, hv, hmem⟩

theorem defineChars_next {h : Heap} {st : FontData} {name : String} {chars : Props}
    {h' : Heap} {st' : FontData}
    (hd : defineChars h st name chars = some (h', st')) :
    h'.next = h.next := by
  obtain ⟨_, v, _, hh⟩ := defineChars_elim hd
  rw [hh, propagate_next]
  rfl

theorem defineChars_mem_not_ids {h : Heap} {st : FontData} {name : String} {chars : Props}
    {h' : Heap} {st' : FontData}
    (hd : defineChars h st name chars = some (h', st')) :
    ∀ i, ¬ idsOf st i → h'.mem i = h.mem i := by
  intro i hni
  obtain ⟨_, v, hv, hh⟩ := defineChars_elim hd
  have hown : i ≠ v.chars.own := by
    intro e
    exact hni (idsOf_of_chain hv (e ▸ List.mem_cons_self _ _))
  have hlinked : i ∉ v.linked := fun m => hni (idsOf_of_linked hv m)
  rw [hh, propagate_mem_notMem chars hlinked]
  simp [Heap.set, hown]

theorem applyOp_facts {h : Heap} {st : FontData} {op : FontOp}
    {h' : Heap} {st' : FontData}
    (ha : applyOp h st op = some (h', st')) :
    h.next ≤ h'.next ∧
    (∀ i, idsOf st' i → idsOf st i ∨ (h.next ≤ i ∧ i < h'.next)) ∧
    (∀ i, i < h.next → ¬ idsOf st i → h'.mem i = h.mem i) := by
  cases op with
  | create name inh lk =>
    exact ⟨createVariant_next_le ha, createVariant_ids ha,
      fun i hi _ => createVariant_mem_lt ha i hi⟩
  | defChars name cs =>
    have hst : st' = st := (defineChars_elim ha).1
    refine ⟨Nat.le_of_eq (defineChars_next ha).symm, ?_, ?_⟩
    · intro i hi
      rw [hst] at hi
      exact Or.inl hi
    · intro i _ hni
      exact defineChars_mem_not_ids ha i hni
  | defDelims ds =>
    simp only [applyOp, Option.some.injEq, Prod.mk.injEq] at ha
    refine ⟨Nat.le_of_eq (by rw [ha.1]), ?_, ?_⟩
    · intro i hi
      rw [← ha.2] at hi
      exact Or.inl hi
    · intro i _ _
      rw [ha.1]

theorem runOpsFst_frame (S : Nat → Prop) :
    ∀ (ops : List FontOp) (w w' : TwoFonts), runOpsFst w ops = some w' →
    (∀ i, S i → i < w.heap.next) → (∀ i, S i → ¬ idsOf w.fst i) →
    w'.snd = w.snd ∧ (∀ i, S i → w'.heap.mem i = w.heap.mem i) := by
  intro ops
  induction ops with
  | nil =>
    intro w w' hrun _ _
    cases hrun
    exact ⟨rfl, fun _ _ => rfl⟩
  | cons op rest ih =>
    intro w w' hrun hS hdisj
    unfold runOpsFst at hrun
    cases happ : applyOp w.heap w.fst op with
    | none => rw [happ] at hrun; cases hrun
    | some p =>
      rw [happ] at hrun
      obtain ⟨h2, st2⟩ := p
      obtain ⟨hle, hids, hmem⟩ := applyOp_facts happ
      have hS' : ∀ i, S i → i < h2.next := fun i hi => Nat.lt_of_lt_of_le (hS i hi) hle
      have hdisj' : ∀ i, S i → ¬ idsOf st2 i := by
        intro i hi hids'
        rcases hids i hids' with hold | ⟨hge, _⟩
        · exact hdisj i hi hold
        · exact Nat.not_lt.mpr hge (hS i hi)
      obtain ⟨hsnd, hmem'⟩ := ih ⟨h2, st2, w.snd⟩ w' hrun hS' hdisj'
      refine ⟨hsnd, fun i hi => ?_⟩
      rw [hmem' i hi]
      exact hmem i (hS i hi) (hdisj i hi)

theorem defineDelimiters_variant (st : FontData) (ds : DelimMap) :
    (defineDelimiters st ds).variant = st.variant := rfl

theorem createVariants_facts :
    ∀ (rows : List (String × Option String × Option String))
      (h : Heap) (st : FontData) (h' : Heap) (st' : FontData),
      createVariants h st rows = some (h', st') →
      h.next ≤ h'.next ∧
      (∀ i, idsOf st' i → idsOf st i ∨ (h.next ≤ i ∧ i < h'.next)) := by
  intro rows
  induction rows with
  | nil =>
    intro h st h' st' hr
    cases hr
    exact ⟨Nat.le_refl _, fun i hi => Or.inl hi⟩
  | cons row rest ih =>
    intro h st h' st' hr
    unfold createVariants at hr
    cases hcv : createVariant h st row.1 row.2.1 row.2.2 with
    | none => rw [hcv] at hr; cases hr
    | some p =>
      rw [hcv] at hr
      obtain ⟨h1, st1⟩ := p
      have hle1 := createVariant_next_le hcv
      have hids1 := createVariant_ids hcv
      obtain ⟨hle2, hids2⟩ := ih h1 st1 h' st' hr
      refine ⟨Nat.le_trans hle1 hle2, fun i hi => ?_⟩
      rcases hids2 i hi with h1i | ⟨hge, hlt⟩
      · rcases hids1 i h1i with h0i | ⟨hge, hlt⟩
        · exact Or.inl h0i
        · exact Or.inr ⟨hge, Nat.lt_of_lt_of_le hlt hle2⟩
      · exact Or.inr ⟨Nat.le_trans hle1 hge, hlt⟩

theorem defineCharsAll_facts :
    ∀ (rows : List (String × Props)) (h : Heap) (st : FontData) (h' : Heap) (st' : FontData),
      defineCharsAll h st rows = some (h', st') →
      st' = st ∧ h'.next = h.next := by
  intro rows
  induction rows with
  | nil =>
    intro h st h' st' hr
    cases hr
    exact ⟨rfl, rfl⟩
  | cons row rest ih =>
    intro h st h' st' hr
    unfold defineCharsAll at hr
    cases hdc : defineChars h st row.1 row.2 with
    | none => rw [hdc] at hr; cases hr
    | some p =>
      rw [hdc] at hr
      obtain ⟨h1, st1⟩ := p
      have hst1 := (defineChars_elim hdc).1
      have hnext1 := defineChars_next hdc
      obtain ⟨hst2, hnext2⟩ := ih h1 st1 h' st' hr
      exact ⟨hst2.trans hst1, hnext2.trans hnext1⟩

/-- Every layer id referenced by a freshly constructed instance was
allocated during its construction. -/
theorem mkFontData_facts {h : Heap} {D : FontDefaults} {h' : Heap} {st' : FontData}
    (hm : mkFontData h D = some (h', st')) :
    h.next ≤ h'.next ∧ ∀ i, idsOf st' i → h.next ≤ i ∧ i < h'.next := by
  unfold mkFontData at hm
  dsimp only at hm
  cases hcv : createVariants h
      { variant := fun _ => none
        delimiters := fun _ => none
        sizeVariants := D.defaultSizeVariants
        params := D.defaultParams } D.defaultVariants with
  | none => rw [hcv] at hm; cases hm
  | some p =>
    rw [hcv] at hm
    obtain ⟨h1, st1⟩ := p
    obtain ⟨hle1, hids1⟩ := createVariants_facts _ _ _ _ _ hcv
    obtain ⟨hst, hnext⟩ := defineCharsAll_facts _ _ _ _ _ hm
    refine ⟨hnext ▸ hle1, fun i hi => ?_⟩
    rw [hst] at hi
    have hi1 : idsOf st1 i := by
      obtain ⟨nm, v, hv, hmem⟩ := hi
      rw [defineDelimiters_variant] at hv
      exact ⟨nm, v, hv, hmem⟩
    rcases hids1 i hi1 with h0 | ⟨hge, hlt⟩
    · obtain ⟨nm, v, hv, _⟩ := h0
      cases hv
    · exact ⟨hge, hnext ▸ hlt⟩

/-! ### The claims -/

/-- Claim C4: For every registered delimiter code `n` and in-range size index `i`,
`getSizeVariant(n, i)` returns `sizeVariants[variants[i]]` when the delimiter
entry has a per-size `variants` override list, and `sizeVariants[i]` otherwise
(concretely: with size-variant list `["a","b","c"]` and no override it returns
`"b"` for index 1, and with override `[2,0,1]` it returns `"c"` for index 0 —
see the witness). -/
theorem getSizeVariant_resolution (st : FontData) (n i : Nat) {d : DelimiterData}
    (hd : st.delimiters n = some d) :
    (d.variants = none → ∀ hi : i < st.sizeVariants.length,
        getSizeVariant st n i = some (some (st.sizeVariants.get ⟨i, hi⟩))) ∧
    (∀ vs j, d.variants = some vs → vs[i]? = some j →
        ∀ hj : j < st.sizeVariants.length,
        getSizeVariant st n i = some (some (st.sizeVariants.get ⟨j, hj⟩))) := by
  constructor
  · intro hv hi
    unfold getSizeVariant
    rw [hd]
    dsimp only
    rw [hv]
    dsimp only
    rw [List.getElem?_eq_getElem hi]
    rfl
  · intro vs j hvs hj hjlt
    unfold getSizeVariant
    rw [hd]
    dsimp only
    rw [hvs]
    dsimp only
    rw [hj]
    dsimp only
    rw [List.getElem?_eq_getElem hjlt]
    rfl

/-- Witness for C4 at the claim's concrete inputs. -/
theorem getSizeVariant_resolution_witness :
    getSizeVariant stDelimA 40 1 = some (some "b") ∧
    getSizeVariant stDelimB 40 0 = some (some "c") :=
  ⟨(getSizeVariant_resolution stDelimA 40 1
      (show stDelimA.delimiters 40 = some delimNoOv from rfl)).1 rfl (by decide),
   (getSizeVariant_resolution stDelimB 40 0
      (show stDelimB.delimiters 40 = some delimOv from rfl)).2 [2, 0, 1] 2 rfl rfl (by decide)⟩

/-- Claim C5, amended: `getSizeVariant(code, sizeIndex)` fails (the modelled
TypeError, result `none`) whenever `code` is not a registered delimiter; but
when the resolved index is out of range of the size-variant name list (or the
override list itself is too short for `sizeIndex`), it does **not** signal an
error: it silently returns `undefined` (result `some none`). -/
theorem getSizeVariant_error_behavior (st : FontData) (n i : Nat) :
    (st.delimiters n = none → getSizeVariant st n i = none) ∧
    (∀ d, st.delimiters n = some d →
      (d.variants = none → st.sizeVariants.length ≤ i →
          getSizeVariant st n i = some none) ∧
      (∀ vs, d.variants = some vs → vs.length ≤ i →
          getSizeVariant st n i = some none) ∧
      (∀ vs j, d.variants = some vs → vs[i]? = some j → st.sizeVariants.length ≤ j →
          getSizeVariant st n i = some none)) := by
  refine ⟨fun hn => ?_, fun d hd => ⟨fun hv hlen => ?_, fun vs hvs hlen => ?_,
    fun vs j hvs hj hlen => ?_⟩⟩
  · unfold getSizeVariant
    rw [hn]
  · unfold getSizeVariant
    rw [hd]
    dsimp only
    rw [hv]
    dsimp only
    rw [List.getElem?_eq_none hlen]
  · unfold getSizeVariant
    rw [hd]
    dsimp only
    rw [hvs]
    dsimp only
    rw [List.getElem?_eq_none hlen]
  · unfold getSizeVariant
    rw [hd]
    dsimp only
    rw [hvs]
    dsimp only
    rw [hj]
    dsimp only
    rw [List.getElem?_eq_none hlen]

/-- Witness for C5 as amended, covering all four behaviors. -/
theorem getSizeVariant_error_behavior_witness :
    getSizeVariant stDelimC 2 0 = none ∧
    getSizeVariant stDelimC 1 5 = some none ∧
    getSizeVariant stDelimB 40 7 = some none ∧
    getSizeVariant stDelimD 1 0 = some none :=
  ⟨(getSizeVariant_error_behavior stDelimC 2 0).1 rfl,
   ((getSizeVariant_error_behavior stDelimC 1 5).2 delimNoOv rfl).1 rfl (by decide),
   ((getSizeVariant_error_behavior stDelimB 40 7).2 delimOv rfl).2.1 [2, 0, 1] rfl (by decide),
   ((getSizeVariant_error_behavior stDelimD 1 0).2 delimOvBig rfl).2.2 [5] 5 rfl rfl (by decide)⟩

/-- Claim C5 counterexample to the claim as stated: for a registered delimiter
with resolved index 5 out of range of the one-element size-variant list, the
code does not fail — it returns `undefined` (`some none`), not an error
(`none`). -/
theorem getSizeVariant_out_of_range_returns_undefined :
    (stDelimC.delimiters 1).isSome = true ∧ stDelimC.sizeVariants.length ≤ 5 ∧
    getSizeVariant stDelimC 1 5 = some none ∧ ¬ getSizeVariant stDelimC 1 5 = none := by
  refine ⟨rfl, by decide, rfl, by decide⟩

/-- Claim C6: For a registered variant with no entry for `c` anywhere along its
lookup chain (own table, link snapshot and inherit chain), `getChar` returns
"not found" (`some none`); for an unregistered name it fails (the modelled
TypeError, result `none`). -/
theorem getChar_missing_behavior (h : Heap) (st : FontData) (name : String) (c : Nat) :
    (∀ v, st.variant name = some v → lookupChain h (chainOf v.chars) c = none →
        getChar h st name c = some none) ∧
    (st.variant name = none → getChar h st name c = none) := by
  constructor
  · intro v hv hlc
    unfold getChar
    rw [hv, Option.map_some', hlc]
  · intro hv
    unfold getChar
    rw [hv]
    rfl

/-- Witness for C6: code 99 is nowhere in "normal"'s chain, and
"missing" is unregistered. -/
theorem getChar_missing_behavior_witness :
    getChar heapL stNorm "normal" 99 = some none ∧
    getChar heapL stNorm "missing" 99 = none :=
  ⟨(getChar_missing_behavior heapL stNorm "normal" 99).1 ⟨[], ⟨0, []⟩⟩ rfl rfl,
   (getChar_missing_behavior heapL stNorm "missing" 99).2 rfl⟩

/-- Claim C8: Defining a delimiter (`defineDelimiters({n: E})`) and then
querying it (`getDelimiter(n)`) returns the identical entry: every field
(direction, sizes, variants, parts, box override) is preserved. -/
theorem defineDelimiters_roundtrip (st : FontData) (n : Nat) (E : DelimiterData) :
    getDelimiter (defineDelimiters st (singletonDelim n E)) n = some E := by
  unfold getDelimiter defineDelimiters singletonDelim
  simp

/-- Claim C10: `createVariant` with a `link` naming an unregistered variant
behaves exactly as with no link at all (the variant is still created from its
inherit chain; no snapshot, no subscription, no error), whereas an `inherit`
naming an unregistered variant makes `createVariant` fail (the modelled
TypeError, result `none`). -/
theorem createVariant_unregistered_refs :
    (∀ (h : Heap) (st : FontData) (name : String) (inh : Option String) (lk : String),
      st.variant lk = none →
      createVariant h st name inh (some lk) = createVariant h st name inh none) ∧
    (∀ (h : Heap) (st : FontData) (name : String) (inh : String) (lk : Option String),
      st.variant inh = none →
      createVariant h st name (some inh) lk = none) := by
  constructor
  · intro h st name inh lk hlk
    unfold createVariant
    cases protoChain st inh with
    | none => rfl
    | some pc =>
      dsimp only
      rw [hlk]
  · intro h st name inh lk hinh
    unfold createVariant
    have hpc : protoChain st (some inh) = none := by
      unfold protoChain
      dsimp only
      rw [hinh]
      rfl
    rw [hpc]

/-- Witness for C10: "nope" is unregistered in `stL`. -/
theorem createVariant_unregistered_refs_witness :
    createVariant heapL stL "V" none (some "nope") = createVariant heapL stL "V" none none ∧
    createVariant heapL stL "V" (some "nope") none = none :=
  ⟨createVariant_unregistered_refs.1 heapL stL "V" none "nope" rfl,
   createVariant_unregistered_refs.2 heapL stL "V" "nope" none rfl⟩

theorem lookupChain_cons (h : Heap) (a : Nat) (rest : List Nat) (n : Nat) :
    lookupChain h (a :: rest) n =
      match h.mem a n with
      | some v => some v
      | none => lookupChain h rest n := rfl

theorem protoChain_some_elim {st : FontData} {nm : String} {pc : List Nat}
    (hp : protoChain st (some nm) = some pc) :
    ∃ vi, st.variant nm = some vi ∧ pc = chainOf vi.chars := by
  unfold protoChain at hp
  dsimp only at hp
  cases hv : st.variant nm with
  | none => rw [hv] at hp; cases hp
  | some vi =>
    rw [hv] at hp
    rw [Option.map_some', Option.some.injEq] at hp
    exact ⟨vi, rfl, hp.symm⟩

/-- Claim C3: For a variant created with `inherit = "normal"` and no link,
any character found on "normal"'s chain (in particular any code defined in
"normal" but absent from the new variant's own, freshly empty table) is
returned unchanged by `getChar` on the new variant. -/
theorem createVariant_inherit_normal_fallback {h : Heap} {st : FontData} {name : String}
    {h' : Heap} {st' : FontData}
    (hc : createVariant h st name (some "normal") none = some (h', st')) :
    ∀ c e, getChar h' st' "normal" c = some (some e) →
      getChar h' st' name c = some (some e) := by
  obtain ⟨pc, hpc, hcase | hcase⟩ := createVariant_elim hc
  case inr =>
    obtain ⟨l, vl, hlk, _⟩ := hcase
    cases hlk
  obtain ⟨hh, hst, _⟩ := hcase
  obtain ⟨vi, hvi, hpce⟩ := protoChain_some_elim hpc
  intro c e hce
  subst hst
  unfold getChar at hce ⊢
  rw [setVar_variant] at hce ⊢
  rw [if_pos rfl]
  by_cases hn : "normal" = name
  · rw [if_pos hn] at hce
    exact hce
  · rw [if_neg hn, hvi] at hce
    rw [Option.map_some'] at hce ⊢
    have hmem : h'.mem h.next c = none := by
      rw [hh]
      simp [Heap.alloc, emptyProps]
    rw [show chainOf (⟨h.next, pc⟩ : JsObj) = h.next :: pc from rfl, lookupChain_cons, hmem]
    dsimp only
    rw [hpce]
    exact hce

/-- Witness for C3: code 3 lives in "normal"'s own table and is seen
through the freshly created inheriting variant "V". -/
theorem createVariant_inherit_normal_fallback_witness :
    getChar resNV.1 resNV.2 "V" 3 = some (some charX) :=
  createVariant_inherit_normal_fallback
    (show createVariant heapL stNorm "V" (some "normal") none = some (resNV.1, resNV.2) from rfl)
    3 charX rfl

/-- Claim C2: `getChar` resolves with strict precedence.  (i) A variant created
with both `inherit` and `link` looks up its own table (the layer allocated
second), then the link snapshot layer (allocated first), then the inherit
chain — in that order, whatever the heap contents.  (ii) Within a chain, a
nearer layer's entry wins over all later ones.  (iii) After
`defineChars(V, E)`, `getChar(V, c)` returns `E`'s entry for every code `c`
that `E` defines, regardless of what the link or inherit chain holds. -/
theorem getChar_precedence :
    (∀ (h : Heap) (st : FontData) (name inh lk : String)
        (vi vl : VariantData) (h' : Heap) (st' : FontData),
      st.variant inh = some vi → st.variant lk = some vl →
      createVariant h st name (some inh) (some lk) = some (h', st') →
      st'.variant name = some ⟨[], ⟨h.next + 1, h.next :: chainOf vi.chars⟩⟩ ∧
      ∀ (hh : Heap) (c : Nat), getChar hh st' name c =
        some (match hh.mem (h.next + 1) c with
          | some x => some x
          | none =>
            match hh.mem h.next c with
            | some y => some y
            | none => lookupChain hh (chainOf vi.chars) c)) ∧
    (∀ (hh : Heap) (a : Nat) (rest : List Nat) (c : Nat),
      lookupChain hh (a :: rest) c =
        match hh.mem a c with
        | some x => some x
        | none => lookupChain hh rest c) ∧
    (∀ (h : Heap) (st : FontData) (name : String) (E : Props) (h' : Heap) (st' : FontData)
        (c : Nat) (X : CharData),
      defineChars h st name E = some (h', st') → E c = some X →
      getChar h' st' name c = some (some X)) := by
  refine ⟨?_, fun hh a rest c => rfl, ?_⟩
  · intro h st name inh lk vi vl h' st' hvi hvl hc
    obtain ⟨pc, hpc, hcase | hcase⟩ := createVariant_elim hc
    · obtain ⟨_, _, hbad⟩ := hcase
      rcases hbad with e | ⟨l, el, hnone⟩
      · cases e
      · obtain rfl : lk = l := Option.some.inj el
        rw [hvl] at hnone
        cases hnone
    · obtain ⟨l, vl', hel, hvl', hh', hst'⟩ := hcase
      obtain rfl : lk = l := Option.some.inj hel
      obtain ⟨vi', hvi', hpce⟩ := protoChain_some_elim hpc
      rw [hvi] at hvi'
      obtain rfl : vi = vi' := Option.some.inj hvi'
      subst hst' hpce
      constructor
      · rw [setVar_variant, if_pos rfl]
      · intro hh c
        unfold getChar
        rw [setVar_variant, if_pos rfl, Option.map_some']
        rfl
  · intro h st name E h' st' c X hd hX
    obtain ⟨hst, v, hv, hh⟩ := defineChars_elim hd
    subst hst
    unfold getChar
    rw [hv, Option.map_some']
    have hown : h'.mem v.chars.own c = some X := by
      rw [hh]
      by_cases hl : v.chars.own ∈ v.linked
      · exact propagate_mem_someAt hX hl _
      · rw [propagate_mem_notMem E hl]
        simp [Heap.set, assignProps_someAt hX]
    rw [show chainOf v.chars = v.chars.own :: v.chars.protos from rfl, lookupChain_cons, hown]

/-- Witness for C2: in the bold-italic example, code 5 first resolves
from the bold snapshot layer (`charZ`), and after `defineChars` on the new
variant itself its own entry (`charY`) wins. -/
theorem getChar_precedence_witness :
    getChar resBI.1 resBI.2 "bold-italic" 5 = some (some charZ) ∧
    getChar resBI2.1 resBI2.2 "bold-italic" 5 = some (some charY) :=
  ⟨(getChar_precedence.1 heapBI stBI "bold-italic" "italic" "bold"
      ⟨[], ⟨1, []⟩⟩ ⟨[], ⟨0, []⟩⟩ resBI.1 resBI.2 rfl rfl rfl).2 resBI.1 5,
   getChar_precedence.2.2 resBI.1 resBI.2 "bold-italic" props5Y resBI2.1 resBI2.2
      5 charY rfl rfl⟩

theorem defineChars_mem_noneAt {h h1 : Heap} {st st1 : FontData} {name : String} {E : Props}
    (hd : defineChars h st name E = some (h1, st1)) {n : Nat} (hn : E n = none) (i : Nat) :
    h1.mem i n = h.mem i n := by
  obtain ⟨_, v, hv, hh⟩ := defineChars_elim hd
  rw [hh, propagate_mem_noneAt hn]
  by_cases hio : i = v.chars.own
  · subst hio
    simp [Heap.set, assignProps_noneAt hn]
  · simp [Heap.set, hio]

theorem defineChars_mem_someAt {h h1 : Heap} {st st1 : FontData} {name : String} {E : Props}
    {v : VariantData} (hv : st.variant name = some v)
    (hd : defineChars h st name E = some (h1, st1)) {n : Nat} {x : CharData}
    (hx : E n = some x) (i : Nat) :
    h1.mem i n = if i = v.chars.own ∨ i ∈ v.linked then some x else h.mem i n := by
  obtain ⟨_, v', hv', hh⟩ := defineChars_elim hd
  rw [hv] at hv'
  obtain rfl : v = v' := Option.some.inj hv'
  rw [hh]
  by_cases hl : i ∈ v.linked
  · rw [propagate_mem_someAt hx hl, if_pos (Or.inr hl)]
  · rw [propagate_mem_notMem E hl]
    by_cases hio : i = v.chars.own
    · subst hio
      rw [if_pos (Or.inl rfl)]
      simp [Heap.set, assignProps_someAt hx]
    · rw [if_neg (by simp [hio, hl])]
      simp [Heap.set, hio]

/-- Claim C9: `defineChars` is idempotent: repeating `defineChars(V, E)` with
the same entries leaves every `getChar` result — on every variant, hence in
particular on `V` and on everything linked to or inheriting from it —
identical to its value after the first call. -/
theorem defineChars_idempotent {h h1 h2 : Heap} {st st1 st2 : FontData}
    {name : String} {E : Props}
    (hd1 : defineChars h st name E = some (h1, st1))
    (hd2 : defineChars h1 st1 name E = some (h2, st2)) :
    ∀ w c, getChar h2 st2 w c = getChar h1 st1 w c := by
  have hst1 : st1 = st := (defineChars_elim hd1).1
  have hst2 : st2 = st1 := (defineChars_elim hd2).1
  obtain ⟨_, v, hv, _⟩ := defineChars_elim hd1
  have hv1 : st1.variant name = some v := by rw [hst1]; exact hv
  have key : ∀ i, h2.mem i = h1.mem i := by
    intro i
    funext n
    cases hE : E n with
    | none => exact defineChars_mem_noneAt hd2 hE i
    | some x =>
      rw [defineChars_mem_someAt hv1 hd2 hE i]
      by_cases hP : i = v.chars.own ∨ i ∈ v.linked
      · rw [if_pos hP, defineChars_mem_someAt hv hd1 hE i, if_pos hP]
      · rw [if_neg hP]
  intro w c
  rw [hst2]
  unfold getChar
  cases hw : st1.variant w with
  | none => rfl
  | some v0 =>
    rw [Option.map_some', Option.map_some']
    exact congrArg some (lookupChain_congr (fun l _ => key l) c)

/-- Witness for C9: defining `{7: charY}` in "normal" twice leaves the
lookup results unchanged. -/
theorem defineChars_idempotent_witness :
    getChar resN2.1 resN2.2 "normal" 7 = getChar resN1.1 resN1.2 "normal" 7 :=
  defineChars_idempotent
    (show defineChars heapL stNorm "normal" props7Y = some (resN1.1, resN1.2) from rfl)
    (show defineChars resN1.1 resN1.2 "normal" props7Y = some (resN2.1, resN2.2) from rfl)
    "normal" 7

/-- Claim C1: For a variant created with `link = L` (and `L` registered,
distinct from the new name): (i) every character code present in `L`'s own
(top-level) table at link-creation time — which is exactly what the snapshot
copies, per the source's "but only its top-level object" — is visible via
`getChar` on the new variant immediately after creation; (ii) the creation
leaves every other variant's `getChar` results (in particular `L`'s own
lookup behavior) unchanged; and (iii) every character code added to `L` by a
following `defineChars(L, E)` call also becomes visible via `getChar` on the
new variant. -/
theorem createVariant_link_propagation {h : Heap} {st : FontData} {name lk : String}
    {inh : Option String} {vl : VariantData} {h' : Heap} {st' : FontData}
    (hbound : boundedIds h st)
    (hvl : st.variant lk = some vl) (hne : lk ≠ name)
    (hc : createVariant h st name inh (some lk) = some (h', st')) :
    (∀ c e, h.mem vl.chars.own c = some e → getChar h' st' name c = some (some e)) ∧
    (∀ w, w ≠ name → ∀ c, getChar h' st' w c = getChar h st w c) ∧
    (∀ E h2 st2, defineChars h' st' lk E = some (h2, st2) →
      ∀ c e, E c = some e → getChar h2 st2 name c = some (some e)) := by
  obtain ⟨pc, hpc, hcase | hcase⟩ := createVariant_elim hc
  case inl =>
    obtain ⟨_, _, hbad⟩ := hcase
    rcases hbad with e | ⟨l, el, hnone⟩
    · cases e
    · obtain rfl : lk = l := Option.some.inj el
      rw [hvl] at hnone
      cases hnone
  obtain ⟨l, vl', hel, hvl', hh', hst'⟩ := hcase
  obtain rfl : lk = l := Option.some.inj hel
  rw [hvl] at hvl'
  obtain rfl : vl = vl' := Option.some.inj hvl'
  have hown_lt : vl.chars.own < h.next :=
    hbound _ (idsOf_of_chain hvl (List.mem_cons_self _ _))
  have hown_ne : vl.chars.own ≠ h.next := Nat.ne_of_lt hown_lt
  have hmem' : ∀ j, h'.mem j =
      if j = h.next + 1 then emptyProps
      else if j = h.next then assignProps emptyProps (h.mem vl.chars.own)
      else h.mem j := by
    intro j
    rw [hh']
    by_cases hj1 : j = h.next + 1
    · simp [Heap.alloc, Heap.set, hj1]
    · by_cases hj0 : j = h.next
      · simp [Heap.alloc, Heap.set, hj0, hj1, hown_ne]
      · simp [Heap.alloc, Heap.set, hj0, hj1]
  have hvarname : st'.variant name = some ⟨[], ⟨h.next + 1, h.next :: pc⟩⟩ := by
    rw [hst', setVar_variant, if_pos rfl]
  have hvarlk : st'.variant lk = some ⟨vl.linked ++ [h.next], vl.chars⟩ := by
    rw [hst', setVar_variant, if_neg hne, setVar_variant, if_pos rfl]
  have hvarother : ∀ w, w ≠ name → w ≠ lk → st'.variant w = st.variant w := by
    intro w hwn hwl
    rw [hst', setVar_variant, if_neg hwn, setVar_variant, if_neg hwl]
  refine ⟨?_, ?_, ?_⟩
  · intro c e hce
    unfold getChar
    rw [hvarname, Option.map_some']
    have h1 : h'.mem (h.next + 1) c = none := by
      rw [hmem']
      simp [emptyProps]
    have h0 : h'.mem h.next c = some e := by
      rw [hmem']
      have hne10 : h.next ≠ h.next + 1 := by omega
      simp [hne10, assignProps_empty, hce]
    dsimp only [chainOf]
    rw [lookupChain_cons, h1]
    dsimp only
    rw [lookupChain_cons, h0]
  · intro w hwn c
    by_cases hwl : w = lk
    · subst hwl
      unfold getChar
      rw [hvarlk, hvl, Option.map_some', Option.map_some']
      refine congrArg some (lookupChain_congr ?_ c)
      intro lyr hlyr
      have hlt : lyr < h.next := hbound _ (idsOf_of_chain hvl hlyr)
      rw [hmem' lyr, if_neg (by omega), if_neg (by omega)]
    · unfold getChar
      rw [hvarother w hwn hwl]
      cases hw : st.variant w with
      | none => rfl
      | some v0 =>
        rw [Option.map_some', Option.map_some']
        refine congrArg some (lookupChain_congr ?_ c)
        intro lyr hlyr
        have hlt : lyr < h.next := hbound _ (idsOf_of_chain hw hlyr)
        rw [hmem' lyr, if_neg (by omega), if_neg (by omega)]
  · intro E h2 st2 hd c e hE
    obtain ⟨hst2, vq, hvq, hh2⟩ := defineChars_elim hd
    rw [hvarlk] at hvq
    obtain rfl : (⟨vl.linked ++ [h.next], vl.chars⟩ : VariantData) = vq :=
      Option.some.inj hvq
    subst hst2
    unfold getChar
    rw [hvarname, Option.map_some']
    have hlink_lt : ∀ x ∈ vl.linked, x < h.next :=
      fun x hx => hbound _ (idsOf_of_linked hvl hx)
    have hn1 : h2.mem (h.next + 1) c = none := by
      rw [hh2]
      dsimp only
      have hnotin : h.next + 1 ∉ vl.linked ++ [h.next] := by
        intro hmm
        rcases List.mem_append.mp hmm with ha | hb
        · have := hlink_lt _ ha
          omega
        · rw [List.mem_singleton] at hb
          omega
      rw [propagate_mem_notMem E hnotin]
      have hno : h.next + 1 ≠ vl.chars.own := by omega
      rw [Heap.set_mem, if_neg hno, hmem']
      simp [emptyProps]
    have hn0 : h2.mem h.next c = some e := by
      rw [hh2]
      dsimp only
      exact propagate_mem_someAt hE
        (List.mem_append.mpr (Or.inr (List.mem_singleton.mpr rfl))) _
    dsimp only [chainOf]
    rw [lookupChain_cons, hn1]
    dsimp only
    rw [lookupChain_cons, hn0]

/-- Witness for C1: "V" is created with `link = "L"`; code 3 (already in
"L") is visible at once, "L" itself is unaffected, and code 7 (added to "L"
afterwards) becomes visible through "V". -/
theorem createVariant_link_propagation_witness :
    getChar linkRes1.1 linkRes1.2 "V" 3 = some (some charX) ∧
    getChar linkRes1.1 linkRes1.2 "L" 3 = getChar heapL stL "L" 3 ∧
    getChar linkRes2.1 linkRes2.2 "V" 7 = some (some charY) := by
  have hb : boundedIds heapL stL := by
    intro i hi
    obtain ⟨nm, v, hv, hmem⟩ := hi
    by_cases hn : nm = "L"
    · rw [show stL.variant nm = if nm = "L" then some ⟨[], ⟨0, []⟩⟩ else none from rfl,
        if_pos hn] at hv
      obtain rfl : (⟨[], ⟨0, []⟩⟩ : VariantData) = v := Option.some.inj hv
      rcases hmem with hcm | hlm
      · have : i = 0 := by simpa [chainOf] using hcm
        subst this
        exact Nat.one_pos
      · exact absurd hlm (List.not_mem_nil i)
    · rw [show stL.variant nm = if nm = "L" then some ⟨[], ⟨0, []⟩⟩ else none from rfl,
        if_neg hn] at hv
      cases hv
  have T := createVariant_link_propagation hb
    (show stL.variant "L" = some ⟨[], ⟨0, []⟩⟩ from rfl)
    (show "L" ≠ "V" by decide)
    (show createVariant heapL stL "V" none (some "L") = some (linkRes1.1, linkRes1.2) from rfl)
  exact ⟨T.1 3 charX rfl, T.2.1 "L" (by decide) 3,
    T.2.2 props7Y linkRes2.1 linkRes2.2
      (show defineChars linkRes1.1 linkRes1.2 "L" props7Y = some (linkRes2.1, linkRes2.2) from rfl)
      7 charY rfl⟩

/-- Claim C7: Two instances constructed from identical default tables (sharing
the layer heap, as two JavaScript objects share one object heap) are
independent: after any sequence of `createVariant`/`defineChars`/
`defineDelimiters` mutations applied to the first instance, every `getChar`,
`getDelimiter`, `getSizeVariant`, `getVariant` and parameter query on the
second instance returns the same result as before the mutations. -/
theorem instance_independence {D : FontDefaults} {h0 h1 h2 : Heap}
    {A B : FontData} {ops : List FontOp} {w' : TwoFonts}
    (hA : mkFontData h0 D = some (h1, A))
    (hB : mkFontData h1 D = some (h2, B))
    (hrun : runOpsFst ⟨h2, A, B⟩ ops = some w') :
    w'.snd = B ∧
    (∀ name c, getChar w'.heap w'.snd name c = getChar h2 B name c) ∧
    (∀ n, getDelimiter w'.snd n = getDelimiter B n) ∧
    (∀ n i, getSizeVariant w'.snd n i = getSizeVariant B n i) ∧
    (∀ name, getVariant w'.snd name = getVariant B name) ∧
    w'.snd.params = B.params := by
  obtain ⟨hle1, hAids⟩ := mkFontData_facts hA
  obtain ⟨hle2, hBids⟩ := mkFontData_facts hB
  have hS : ∀ i, idsOf B i → i < (⟨h2, A, B⟩ : TwoFonts).heap.next :=
    fun i hi => (hBids i hi).2
  have hdisj : ∀ i, idsOf B i → ¬ idsOf (⟨h2, A, B⟩ : TwoFonts).fst i := by
    intro i hi hiA
    have hge : h1.next ≤ i := (hBids i hi).1
    have hlt : i < h1.next := (hAids i hiA).2
    omega
  obtain ⟨hsnd, hmem⟩ := runOpsFst_frame (idsOf B) ops ⟨h2, A, B⟩ w' hrun hS hdisj
  refine ⟨hsnd, ?_, fun n => by rw [hsnd], fun n i => by rw [hsnd],
    fun name => by rw [hsnd], by rw [hsnd]⟩
  intro name c
  rw [hsnd]
  unfold getChar
  cases hv : B.variant name with
  | none => rfl
  | some v =>
    rw [Option.map_some', Option.map_some']
    refine congrArg some (lookupChain_congr ?_ c)
    intro lyr hlyr
    exact hmem lyr (idsOf_of_chain hv hlyr)

/-- Witness for C7: two instances built from `smallDefaults`; the first
is mutated by `opsMut` (a create-with-link, a `defineChars` and a
`defineDelimiters`), and each query on the second is unchanged. -/
theorem instance_independence_witness :
    worldMut.snd = inst2.2 ∧
    getChar worldMut.heap worldMut.snd "normal" 3 = getChar inst2.1 inst2.2 "normal" 3 ∧
    getDelimiter worldMut.snd 40 = getDelimiter inst2.2 40 ∧
    getSizeVariant worldMut.snd 40 0 = getSizeVariant inst2.2 40 0 ∧
    getVariant worldMut.snd "bold" = getVariant inst2.2 "bold" ∧
    worldMut.snd.params = inst2.2.params := by
  have T := instance_independence
    (show mkFontData Heap.empty smallDefaults = some (inst1.1, inst1.2) from rfl)
    (show mkFontData inst1.1 smallDefaults = some (inst2.1, inst2.2) from rfl)
    (show runOpsFst ⟨inst2.1, inst1.2, inst2.2⟩ opsMut = some worldMut from rfl)
  exact ⟨T.1, T.2.1 "normal" 3, T.2.2.1 40, T.2.2.2.1 40 0,
    T.2.2.2.2.1 "bold", T.2.2.2.2.2⟩
